import Mathlib

/-!
Shallow embedding of the filler-aware interruption handler:
`normalization.py`, `config.py` (default vocabulary and thresholds),
`filler_aware_adapter.py` (the event-filtering engine) and
`filler_manager.py` (the word-list watcher).  Machine state (the
manager's mutable fields, the filesystem it watches) is passed
explicitly; the wall clock (`time.time()`) is an explicit parameter.
-/

/-! ## Generic string and association-list helpers -/

/-- Lowercasing of a string, character by character (Python `str.lower`
restricted to the ASCII range used by this code base). -/
def strLower (s : String) : String :=
  String.mk (s.data.map Char.toLower)

/-- Does `hay` start with `needle` (character lists)? -/
def startsWithChars : List Char → List Char → Bool
  | _, [] => true
  | [], _ :: _ => false
  | h :: hs, n :: ns => h == n && startsWithChars hs ns

/-- Does `hay` contain `needle` as a contiguous substring (character
lists)?  Models Python's `needle in hay`. -/
def containsChars : List Char → List Char → Bool
  | [], needle => needle.isEmpty
  | h :: hs, needle => startsWithChars (h :: hs) needle || containsChars hs needle

/-- Substring test on strings: Python `needle in hay`. -/
def strContains (hay needle : String) : Bool :=
  containsChars hay.data needle.data

/-- Does the file name end in `.txt`?  Python `fname.endswith(".txt")`. -/
def endsWithTxt (s : String) : Bool :=
  startsWithChars s.data.reverse ['t', 'x', 't', '.']

/-- Python `os.path.join(directory, fname)` for the POSIX paths this
repository uses: `directory ++ "/" ++ fname`. -/
def pathJoin (dir fname : String) : String :=
  String.mk (dir.data ++ '/' :: fname.data)

/-- Python `" ".join(words)`. -/
def joinWords : List String → String
  | [] => String.mk []
  | [w] => w
  | w :: ws => w ++ String.mk [' '] ++ joinWords ws

/-- First-match lookup in an association list keyed by strings; models
reading a Python `dict` (whose keys are unique, so first match is the
match). -/
def alistGet {α : Type} (k : String) : List (String × α) → Option α
  | [] => none
  | (a, v) :: es => if a = k then some v else alistGet k es

/-- Write `d[k] = v` on an association list.  The representation places
the new binding in front and drops stale bindings of the same key; dict
insertion order is never observed by the embedded code. -/
def dictSet {α : Type} (c : List (String × α)) (k : String) (v : α) :
    List (String × α) :=
  (k, v) :: c.filter (fun kv => kv.1 ≠ k)

/-- Extensional equality of two string lists viewed as sets; models
Python's `set(a) != set(b)` comparison (negated). -/
def listSetEqStr (a b : List String) : Bool :=
  a.all (fun x => decide (x ∈ b)) && b.all (fun x => decide (x ∈ a))

/-! ## `normalization.py` -/

/-- Table `HINDI_VARIANTS` from `normalization.py`, as an association
list in source order. -/
def HINDI_VARIANTS : List (String × String) :=
  [("haan", "haan"), ("han", "haan"), ("haanji", "haan"),
   ("haan ji", "haan"), ("haanji?", "haan"), ("accha", "accha"),
   ("acha", "accha"), ("achha", "accha"), ("theek", "thik"),
   ("thik", "thik")]

/-- Table `ENGLISH_VARIANTS` from `normalization.py`. -/
def ENGLISH_VARIANTS : List (String × String) :=
  [("ok", "okay"), ("okk", "okay"), ("okayyy", "okay"),
   ("umm", "um"), ("ummm", "um"), ("uhh", "uh"),
   ("hmm ok", "hmm okay"), ("hmm okay", "hmm okay"),
   ("hmmkay", "hmm okay")]

/-- The merged table `NORMALIZATION_MAP`, i.e. the Python dict union of
`HINDI_VARIANTS` and `ENGLISH_VARIANTS`.  The
two key sets are disjoint, so concatenation with first-match lookup has
exactly the merged dict's lookup behavior. -/
def NORMALIZATION_MAP : List (String × String) :=
  HINDI_VARIANTS ++ ENGLISH_VARIANTS

/-- The punctuation string `STRIP_CHARS` from `normalization.py`, given
as the list of its characters (space, comma, period, exclamation and
question marks, semicolon, colon, hyphen, double and single quotes,
parentheses). -/
def STRIP_CHARS : List Char :=
  [' ', ',', '.', '!', '?', ';', ':', '-', '"', '\'', '(', ')']

/-- Python `s.strip(chars)`: drop characters of `chars` from both ends. -/
def pyStrip (chars : List Char) (s : String) : String :=
  String.mk (((s.data.dropWhile (fun c => chars.contains c)).reverse.dropWhile
    (fun c => chars.contains c)).reverse)

/-- Python `s.strip()`: drop whitespace from both ends. -/
def pyTrim (s : String) : String :=
  String.mk (((s.data.dropWhile Char.isWhitespace).reverse.dropWhile
    Char.isWhitespace).reverse)

/-- Function `normalize_speech_tokens` from `normalization.py`: per token,
lowercase, strip `STRIP_CHARS`, then `NORMALIZATION_MAP.get(cleaned,
cleaned)`. -/
def normalize_speech_tokens (words : List String) : List String :=
  words.map (fun w =>
    let cleaned := pyStrip STRIP_CHARS (strLower w)
    (alistGet cleaned NORMALIZATION_MAP).getD cleaned)

/-- Per-token normalization written directly from the spec's words
(§4.1): lowercase, strip the fixed leading/trailing punctuation set,
then replace by the canonical form if the cleaned token is in the
static variant table, else keep the cleaned token unchanged.  Used to
compare the source function against the spec sentence. -/
def specNormalizeToken (w : String) : String :=
  let cleaned := pyStrip STRIP_CHARS (strLower w)
  match alistGet cleaned NORMALIZATION_MAP with
  | some canonical => canonical
  | none => cleaned

/-! ## `config.py` — import-time constants

With no environment overrides and no `filler_words` directory present
(the repository ships none), `IGNORED_FILLERS` is the default
environment list and `INTERRUPTION_TRIGGERS` the default command list;
the thresholds take their documented defaults 0.35 and 5. -/

/-- The four module-level constants of `config.py` that
`filler_aware_adapter.py` imports.  They are computed once at import
time and never change afterwards. -/
structure AdapterConfig where
  IGNORED_FILLERS : Finset String
  INTERRUPTION_TRIGGERS : Finset String
  AGENT_SPEAKING_CONFIDENCE_THRESHOLD : ℚ
  SHORT_SEGMENT_TOKEN_LIMIT : ℕ
deriving DecidableEq

/-- The constants of `config.py` in the default environment:
`DEFAULT_FILLERS_ENV`, `DEFAULT_INTERRUPTS_ENV`, threshold 0.35,
short-segment limit 5. -/
def defaultAdapterConfig : AdapterConfig :=
  { IGNORED_FILLERS :=
      {"uh", "umm", "hmm", "haan", "okay", "hmm okay"},
    INTERRUPTION_TRIGGERS := {"stop", "wait", "hold on", "pause"},
    AGENT_SPEAKING_CONFIDENCE_THRESHOLD := mkRat 35 100,
    SHORT_SEGMENT_TOKEN_LIMIT := 5 }

/-! ## `filler_aware_adapter.py` — event model and filtering -/

/-- The event kinds distinguished by `_filter_event`: the three
transcript kinds it checks for, and `OTHER` for every remaining kind
(start/end of speech, usage, ...). -/
inductive SpeechEventType where
  | INTERIM_TRANSCRIPT
  | PREFLIGHT_TRANSCRIPT
  | FINAL_TRANSCRIPT
  | OTHER
deriving DecidableEq

/-- One recognition alternative: `text` and `confidence`.  The source's
float confidence defaults to 0.0 when the recognizer reports none, so
an absent confidence is the value 0 here. -/
structure SpeechAlt where
  text : String
  confidence : ℚ
deriving DecidableEq

/-- A speech event as the filter sees it: its kind, its alternatives,
and the mutable `_ignore_interruption` suppression flag (absent/false
by default upstream). -/
structure SpeechEvent where
  type : SpeechEventType
  alternatives : List SpeechAlt
  ignoreInterruption : Bool
deriving DecidableEq

/-- Is the event kind one of the three transcript kinds listed in
`_filter_event`'s first test? -/
def isTranscriptType : SpeechEventType → Bool
  | SpeechEventType.INTERIM_TRANSCRIPT => true
  | SpeechEventType.PREFLIGHT_TRANSCRIPT => true
  | SpeechEventType.FINAL_TRANSCRIPT => true
  | SpeechEventType.OTHER => false

/-- A `\w` character of the token regex `_TOKEN_RE` (ASCII range). -/
def isWordChar (c : Char) : Bool :=
  c.isAlphanum || c == '_'

/-- Helper for `extract_words`: split a character stream into maximal
runs of word characters; `acc` holds the current run reversed. -/
def tokenizeAux : List Char → List Char → List String
  | [], acc => if acc.isEmpty then [] else [String.mk acc.reverse]
  | c :: cs, acc =>
    if isWordChar c then tokenizeAux cs (c :: acc)
    else if acc.isEmpty then tokenizeAux cs []
    else String.mk acc.reverse :: tokenizeAux cs []

/-- Helper `_extract_words`: lowercased `_TOKEN_RE.findall(text)`. -/
def extract_words (text : String) : List String :=
  (tokenizeAux text.data []).map strLower

/-- Helper `_is_filler_only`: non-empty and every word in the filler set. -/
def is_filler_only (fillers : Finset String) (words : List String) : Bool :=
  !words.isEmpty && words.all (fun w => decide (w ∈ fillers))

/-- Helper `_has_interrupt_command`: join the words with single spaces; first
test every multi-word trigger (one containing a space) for substring
occurrence in the joined text, then test each single word for exact
membership in the trigger set. -/
def has_interrupt_command (triggers : Finset String) (words : List String) :
    Bool :=
  let text := joinWords words
  if decide (∃ cmd ∈ triggers,
      cmd.data.contains ' ' = true ∧ strContains text cmd = true) then
    true
  else
    words.any (fun w => decide (w ∈ triggers))

/-- Method `_FillerStream._filter_event`.  Every branch of the source returns
the event object (possibly after setting `_ignore_interruption`), so
the embedding returns the resulting event. -/
def filter_event (cfg : AdapterConfig) (agentSpeaking : Bool)
    (event : SpeechEvent) : SpeechEvent :=
  if isTranscriptType event.type = false then event
  else
    match event.alternatives with
    | [] => event
    | alt :: _ =>
      let words := extract_words alt.text
      if words.isEmpty then event
      else if agentSpeaking = false then event
      else if has_interrupt_command cfg.INTERRUPTION_TRIGGERS words then event
      else if is_filler_only cfg.IGNORED_FILLERS words then
        { event with ignoreInterruption := true }
      else
        let isLowConfidence :=
          decide (alt.confidence ≠ 0) &&
            decide (alt.confidence < cfg.AGENT_SPEAKING_CONFIDENCE_THRESHOLD)
        let isShort := decide (words.length ≤ cfg.SHORT_SEGMENT_TOKEN_LIMIT)
        if isLowConfidence && isShort then
          { event with ignoreInterruption := true }
        else event

/-- The event-consumption loop of `_FillerStream._run`: each event from
the wrapped stream is passed through `_filter_event` and forwarded (the
`None` guard in the source is dead, since `_filter_event` returns the
event on every branch). -/
def filter_run (cfg : AdapterConfig) (agentSpeaking : Bool)
    (events : List SpeechEvent) : List SpeechEvent :=
  events.map (filter_event cfg agentSpeaking)

/-! ## `filler_manager.py` — the word-list watcher

The directory it watches is modelled as an explicit, immutable snapshot
of the filesystem: the entries `os.listdir` would return, each with its
modification time and its lines.  A call to the manager sees one such
snapshot (the source reads the directory atomically for the purposes of
the claims; the `FileNotFoundError` race branch is kept but is
unreachable against a snapshot). -/

/-- One file of the watched directory. -/
structure FSEntry where
  name : String
  mtime : ℚ
  lines : List String
deriving DecidableEq

/-- A snapshot of the watched directory. -/
structure WatchedDir where
  entries : List FSEntry
deriving DecidableEq

/-- Python `os.listdir(self.directory)`. -/
def listdirFS (fs : WatchedDir) : List String :=
  fs.entries.map (fun e => e.name)

/-- Find a directory entry by file name (first match). -/
def fsFind (fname : String) : List FSEntry → Option FSEntry
  | [] => none
  | e :: es => if e.name = fname then some e else fsFind fname es

/-- Python `os.path.getmtime` on the snapshot, by file name. -/
def getmtimeFS (fs : WatchedDir) (fname : String) : Option ℚ :=
  (fsFind fname fs.entries).map (fun e => e.mtime)

/-- The word set built from a file's lines:
`{line.strip().lower() for line in f if line.strip()}`. -/
def wordSetOfLines (lines : List String) : Finset String :=
  (lines.filterMap (fun l =>
    let t := pyTrim l
    if t = String.mk [] then none else some (strLower t))).toFinset

/-- Method `FillerManager._load_words_from_file`, keyed by file name (the
source passes `os.path.join(self.directory, fname)`; the directory is
fixed, so the name determines the path).  A missing file contributes
the empty set. -/
def load_words_from_file (fs : WatchedDir) (fname : String) : Finset String :=
  match fsFind fname fs.entries with
  | none => ∅
  | some e => wordSetOfLines e.lines

/-- The manager's mtime cache `self._file_cache : Dict[str, float]`,
keyed by full path. -/
abbrev MtimeCache : Type := List (String × ℚ)

/-- The `for fname in os.listdir(...)` loop of `_has_file_changes`,
threading the cache, the `files_updated` flag and the `current_files`
accumulator through the iterations. -/
def scanFiles (dir : String) (fs : WatchedDir) :
    List String → MtimeCache → Bool → List String →
      MtimeCache × Bool × List String
  | [], cache, upd, cur => (cache, upd, cur)
  | fname :: rest, cache, upd, cur =>
    if endsWithTxt fname = false then scanFiles dir fs rest cache upd cur
    else
      let p := pathJoin dir fname
      let cur2 := cur ++ [p]
      match getmtimeFS fs fname with
      | none => scanFiles dir fs rest cache upd cur2
      | some m =>
        match alistGet p cache with
        | none => scanFiles dir fs rest (dictSet cache p m) true cur2
        | some t =>
          if t < m then scanFiles dir fs rest (dictSet cache p m) true cur2
          else scanFiles dir fs rest cache upd cur2

/-- The per-file trigger condition of the scan loop: a `.txt` file with
a readable mtime that is either absent from the cache or cached with a
strictly smaller mtime. -/
def fileTrigger (dir : String) (fs : WatchedDir) (cache : MtimeCache)
    (fname : String) : Bool :=
  endsWithTxt fname &&
    (match getmtimeFS fs fname with
     | none => false
     | some m =>
       match alistGet (pathJoin dir fname) cache with
       | none => true
       | some t => decide (t < m))

/-- The full paths of the `.txt` files currently in the directory, in
listing order (the `current_files` set at the end of the scan). -/
def txtPaths (dir : String) (fs : WatchedDir) : List String :=
  ((listdirFS fs).filter (fun f => endsWithTxt f)).map (pathJoin dir)

/-- Method `FillerManager._has_file_changes`: scan the directory, then
reconcile deletions — if the cached key set differs from the observed
path set, prune the cache to the observed paths and report a change.
Returns the (possibly mutated) cache and the `files_updated` result. -/
def has_file_changes (dir : String) (fs : WatchedDir) (cache : MtimeCache) :
    MtimeCache × Bool :=
  let r := scanFiles dir fs (listdirFS fs) cache false []
  if listSetEqStr (r.1.map (fun kv => kv.1)) r.2.2 then (r.1, r.2.1)
  else (r.1.filter (fun kv => decide (kv.1 ∈ r.2.2)), true)

/-- The mutable fields of a `FillerManager` instance. -/
structure FillerManagerState where
  last_loaded_time : ℚ
  fillers : Finset String
  commands : Finset String
  file_cache : MtimeCache
deriving DecidableEq

/-- The reload loop of `reload_if_changed`: for every `.txt` file, load
its word set and route it into the commands accumulator when the
lowercased file name contains `"command"`, else into the fillers
accumulator. -/
def loadLoop (fs : WatchedDir) :
    List String → Finset String × Finset String →
      Finset String × Finset String
  | [], acc => acc
  | fname :: rest, acc =>
    if endsWithTxt fname = false then loadLoop fs rest acc
    else
      let words := load_words_from_file fs fname
      if strContains (strLower fname) "command" then
        loadLoop fs rest (acc.1, acc.2 ∪ words)
      else
        loadLoop fs rest (acc.1 ∪ words, acc.2)

/-- Method `FillerManager.reload_if_changed`.  Here `now` is the value `time.time()`
would return during this call.  The second component counts the file
reads performed (`_load_words_from_file` calls), which the early-return
path never makes. -/
def reload_if_changed (dir : String) (fs : WatchedDir) (now : ℚ)
    (s : FillerManagerState) : FillerManagerState × ℕ :=
  let hc := has_file_changes dir fs s.file_cache
  if hc.2 = false ∧ 0 < s.last_loaded_time then
    ({ s with file_cache := hc.1 }, 0)
  else
    let acc := loadLoop fs (listdirFS fs) (∅, ∅)
    ({ last_loaded_time := now, fillers := acc.1, commands := acc.2,
       file_cache := hc.1 },
     ((listdirFS fs).filter (fun f => endsWithTxt f)).length)

instance {α β : Type} [DecidableEq α] [DecidableEq β] :
    DecidableEq (Except α β) := fun x y =>
  match x, y with
  | Except.error a, Except.error b =>
    if h : a = b then isTrue (by rw [h]) else isFalse (by simp [h])
  | Except.error _, Except.ok _ => isFalse (by simp)
  | Except.ok _, Except.error _ => isFalse (by simp)
  | Except.ok a, Except.ok b =>
    if h : a = b then isTrue (by rw [h]) else isFalse (by simp [h])

/-- Constructor `FillerManager.__init__`: record the directory, fail with
`FileNotFoundError` if it does not exist, else run the initial
`reload_if_changed` from the zeroed state.  Returns the resulting state
together with the number of file reads the initial load performed. -/
def FillerManager_init (dir : String) (dirExists : Bool) (fs : WatchedDir)
    (now : ℚ) : Except String (FillerManagerState × ℕ) :=
  if dirExists = false then
    Except.error ("Filler directory not found: " ++ dir)
  else
    Except.ok (reload_if_changed dir fs now
      { last_loaded_time := 0, fillers := ∅, commands := ∅, file_cache := [] })

/-! ## The combined system for the vocabulary-flow claim

`basic_agent.py` wires a `FillerAwareAdapter` whose filtering functions
close over the import-time constants of `config.py`; a
`FillerManagerState`, when one exists, is separate state.  The system
state packages both. -/

/-- The process-wide state relevant to filtering: the adapter's
import-time configuration and the word-list manager's state. -/
structure SystemState where
  adapterCfg : AdapterConfig
  mgr : FillerManagerState

/-- A vocabulary reload: `reload_if_changed` updates the manager's
state; the adapter configuration is immutable after import. -/
def systemReload (dir : String) (fs : WatchedDir) (now : ℚ)
    (sys : SystemState) : SystemState :=
  { sys with mgr := (reload_if_changed dir fs now sys.mgr).1 }

/-- The filtering decision of the running system: `_filter_event` reads
the import-time configuration. -/
def systemFilter (sys : SystemState) (agentSpeaking : Bool)
    (event : SpeechEvent) : SpeechEvent :=
  filter_event sys.adapterCfg agentSpeaking event

/-! ## Concrete fixtures used by counterexamples and witnesses -/

/-- A final transcript event with the given text and confidence, flag
clear (the upstream default). -/
def mkFinalEvent (text : String) (confidence : ℚ) : SpeechEvent :=
  { type := SpeechEventType.FINAL_TRANSCRIPT,
    alternatives := [{ text := text, confidence := confidence }],
    ignoreInterruption := false }

/-- Event "blah" with high confidence. -/
def evBlah : SpeechEvent := mkFinalEvent "blah" (mkRat 9 10)

/-- Event "maybe" with confidence exactly 0. -/
def evMaybeZero : SpeechEvent := mkFinalEvent "maybe" 0

/-- Event "maybe" with confidence 0.2. -/
def evMaybeLow : SpeechEvent := mkFinalEvent "maybe" (mkRat 2 10)

/-- Event "uh stop" with high confidence. -/
def evUhStop : SpeechEvent := mkFinalEvent "uh stop" (mkRat 9 10)

/-- Event "umm" with high confidence. -/
def evUmm : SpeechEvent := mkFinalEvent "umm" (mkRat 9 10)

/-- A fresh manager state, as `__init__` builds before the initial
load. -/
def initialManagerState : FillerManagerState :=
  { last_loaded_time := 0, fillers := ∅, commands := ∅, file_cache := [] }

/-- A directory snapshot holding one filler file `extra.txt` with the
single word "blah". -/
def fsBlah : WatchedDir := ⟨[⟨"extra.txt", 1, ["blah"]⟩]⟩

/-- The system at startup: default adapter configuration, fresh
manager. -/
def sysInit : SystemState :=
  { adapterCfg := defaultAdapterConfig, mgr := initialManagerState }

/-- The system after a vocabulary reload that picked up the new filler
word "blah" from `extra.txt`. -/
def sysBlah : SystemState := systemReload "filler_words" fsBlah 1 sysInit

/-- Snapshot for the C2 counterexample: `a.txt` with mtime 5, smaller
than the cached 10. -/
def fsMtimeDecreased : WatchedDir := ⟨[⟨"a.txt", 5, []⟩]⟩

/-- Snapshot for the C2 witness: `a.txt` with mtime 15, greater than
the cached 10. -/
def fsMtimeIncreased : WatchedDir := ⟨[⟨"a.txt", 15, []⟩]⟩

/-- A cache that remembers `a.txt` (under directory `d`) at mtime 10. -/
def cacheA10 : MtimeCache := [(pathJoin "d" "a.txt", 10)]

/-- Directory snapshot for the C7 witness: one filler file and one
command file. -/
def fsTwo : WatchedDir :=
  ⟨[⟨"a.txt", 10, ["uh", " Blah "]⟩, ⟨"my_commands.txt", 3, ["stop", "", "halt"]⟩]⟩

/-! ## Lemmas about the filtering engine -/

theorem filter_event_eq_or_flag (cfg : AdapterConfig) (sp : Bool)
    (e : SpeechEvent) :
    filter_event cfg sp e = e ∨
      filter_event cfg sp e = { e with ignoreInterruption := true } := by
  unfold filter_event
  repeat' first
    | exact Or.inl rfl
    | exact Or.inr rfl
    | dsimp only
    | split

theorem filter_event_not_speaking (cfg : AdapterConfig) (e : SpeechEvent) :
    filter_event cfg false e = e := by
  unfold filter_event
  repeat' first
    | rfl
    | dsimp only
    | simp only [if_pos rfl]
    | split

theorem filter_event_not_transcript (cfg : AdapterConfig) (sp : Bool)
    (e : SpeechEvent) (htype : isTranscriptType e.type = false) :
    filter_event cfg sp e = e := by
  unfold filter_event
  simp [htype]

theorem filter_event_speaking_body (cfg : AdapterConfig) (e : SpeechEvent)
    (alt : SpeechAlt) (rest : List SpeechAlt)
    (htype : isTranscriptType e.type = true)
    (halt : e.alternatives = alt :: rest)
    (hwords : extract_words alt.text ≠ []) :
    filter_event cfg true e =
      (if has_interrupt_command cfg.INTERRUPTION_TRIGGERS
            (extract_words alt.text) then e
       else if is_filler_only cfg.IGNORED_FILLERS (extract_words alt.text) then
         { e with ignoreInterruption := true }
       else if (decide (alt.confidence ≠ 0) &&
             decide (alt.confidence <
               cfg.AGENT_SPEAKING_CONFIDENCE_THRESHOLD)) &&
             decide ((extract_words alt.text).length ≤
               cfg.SHORT_SEGMENT_TOKEN_LIMIT) then
         { e with ignoreInterruption := true }
       else e) := by
  unfold filter_event
  rw [halt, htype]
  simp [List.isEmpty_iff, hwords]

theorem has_interrupt_command_of_match (triggers : Finset String)
    (words : List String)
    (h : (∃ cmd ∈ triggers, cmd.data.contains ' ' = true ∧
            strContains (joinWords words) cmd = true) ∨
         (∃ w ∈ words, w ∈ triggers)) :
    has_interrupt_command triggers words = true := by
  unfold has_interrupt_command
  dsimp only
  rcases h with hmulti | ⟨w, hw, hwin⟩
  · rw [decide_eq_true hmulti]
    simp
  · split
    · rfl
    · simp only [List.any_eq_true]
      exact ⟨w, hw, by simpa using hwin⟩

theorem words_ne_nil_of_cmd (triggers : Finset String) (words : List String)
    (h : (∃ cmd ∈ triggers, cmd.data.contains ' ' = true ∧
            strContains (joinWords words) cmd = true) ∨
         (∃ w ∈ words, w ∈ triggers)) :
    words ≠ [] := by
  intro hnil
  subst hnil
  rcases h with ⟨cmd, _, hsp, hsub⟩ | ⟨w, hw, _⟩
  · have hne : cmd.data ≠ [] := by
      intro hd
      rw [hd] at hsp
      simp [List.contains] at hsp
    have : strContains (joinWords []) cmd = cmd.data.isEmpty := rfl
    rw [this] at hsub
    simp [List.isEmpty_iff, hne] at hsub
  · simp at hw

/-- C4: an event whose tokens (joined with single spaces) contain a
multi-word command phrase as a substring, or one of whose tokens is a
configured command, always passes through unmodified: the suppression
flag is never set, whatever the agent-speaking predicate returns. -/
theorem C4_command_override (cfg : AdapterConfig) (sp : Bool)
    (e : SpeechEvent) (alt : SpeechAlt) (rest : List SpeechAlt)
    (halt : e.alternatives = alt :: rest)
    (hcmd : (∃ cmd ∈ cfg.INTERRUPTION_TRIGGERS, cmd.data.contains ' ' = true ∧
               strContains (joinWords (extract_words alt.text)) cmd = true) ∨
            (∃ w ∈ extract_words alt.text, w ∈ cfg.INTERRUPTION_TRIGGERS)) :
    filter_event cfg sp e = e := by
  cases sp with
  | false => exact filter_event_not_speaking cfg e
  | true =>
    cases htype : isTranscriptType e.type with
    | false => exact filter_event_not_transcript cfg true e htype
    | true =>
      rw [filter_event_speaking_body cfg e alt rest htype halt
        (words_ne_nil_of_cmd _ _ hcmd)]
      rw [has_interrupt_command_of_match _ _ hcmd]
      simp

theorem C4_witness :
    evUhStop.alternatives =
      [{ text := "uh stop", confidence := mkRat 9 10 }] ∧
    (∃ w ∈ extract_words "uh stop",
        w ∈ defaultAdapterConfig.INTERRUPTION_TRIGGERS) ∧
    filter_event defaultAdapterConfig true evUhStop = evUhStop :=
  ⟨rfl, by decide,
   C4_command_override defaultAdapterConfig true evUhStop
     { text := "uh stop", confidence := mkRat 9 10 } [] rfl (Or.inr (by decide))⟩

/-- C5: a non-empty all-filler, command-free token sequence is
suppressed when the agent is speaking; when the predicate returns
false, no event is ever modified. -/
theorem C5_pure_filler (cfg : AdapterConfig) (e : SpeechEvent)
    (alt : SpeechAlt) (rest : List SpeechAlt)
    (htype : isTranscriptType e.type = true)
    (halt : e.alternatives = alt :: rest)
    (hwords : extract_words alt.text ≠ [])
    (hfill : ∀ w ∈ extract_words alt.text, w ∈ cfg.IGNORED_FILLERS)
    (hcmd : has_interrupt_command cfg.INTERRUPTION_TRIGGERS
      (extract_words alt.text) = false) :
    (filter_event cfg true e).ignoreInterruption = true ∧
      ∀ ev : SpeechEvent, filter_event cfg false ev = ev := by
  refine ⟨?_, fun ev => filter_event_not_speaking cfg ev⟩
  rw [filter_event_speaking_body cfg e alt rest htype halt hwords]
  rw [hcmd]
  have hfo : is_filler_only cfg.IGNORED_FILLERS (extract_words alt.text) =
      true := by
    unfold is_filler_only
    simp [List.isEmpty_iff, hwords, List.all_eq_true]
    exact hfill
  rw [hfo]
  simp

theorem C5_witness :
    evUmm.alternatives = [{ text := "umm", confidence := mkRat 9 10 }] ∧
    extract_words "umm" ≠ [] ∧
    (∀ w ∈ extract_words "umm",
        w ∈ defaultAdapterConfig.IGNORED_FILLERS) ∧
    (filter_event defaultAdapterConfig true evUmm).ignoreInterruption =
      true ∧
    filter_event defaultAdapterConfig false evUmm = evUmm := by
  have h := C5_pure_filler defaultAdapterConfig evUmm
    { text := "umm", confidence := mkRat 9 10 } [] rfl rfl (by decide)
    (by decide) (by decide)
  exact ⟨rfl, by decide, by decide, h.1, h.2 evUmm⟩

/-- C6: filtering is total and one-to-one on events — every branch
forwards the event with its kind and alternatives (hence text and
confidence) unchanged; at most the suppression flag is raised; the
stream loop emits exactly one output per input. -/
theorem C6_event_preservation (cfg : AdapterConfig) (sp : Bool)
    (e : SpeechEvent) :
    ((filter_event cfg sp e).type = e.type ∧
     (filter_event cfg sp e).alternatives = e.alternatives ∧
     ((filter_event cfg sp e).ignoreInterruption = e.ignoreInterruption ∨
      (filter_event cfg sp e).ignoreInterruption = true)) ∧
    ∀ es : List SpeechEvent, (filter_run cfg sp es).length = es.length := by
  constructor
  · rcases filter_event_eq_or_flag cfg sp e with h | h <;> rw [h] <;> simp
  · intro es
    unfold filter_run
    simp

/-- C10: with a reported confidence of exactly 0, the low-confidence
short-segment rule never fires — the event passes through unmodified
(the code's truthiness test treats confidence 0.0 like an absent
confidence). -/
theorem C10_zero_confidence (cfg : AdapterConfig) (e : SpeechEvent)
    (alt : SpeechAlt) (rest : List SpeechAlt)
    (htype : isTranscriptType e.type = true)
    (halt : e.alternatives = alt :: rest)
    (hwords : extract_words alt.text ≠ [])
    (hconf : alt.confidence = 0)
    (hcmd : has_interrupt_command cfg.INTERRUPTION_TRIGGERS
      (extract_words alt.text) = false)
    (hfill : is_filler_only cfg.IGNORED_FILLERS
      (extract_words alt.text) = false)
    (hshort : (extract_words alt.text).length ≤
      cfg.SHORT_SEGMENT_TOKEN_LIMIT) :
    filter_event cfg true e = e := by
  have hs : (extract_words alt.text).length ≤ cfg.SHORT_SEGMENT_TOKEN_LIMIT :=
    hshort
  rw [filter_event_speaking_body cfg e alt rest htype halt hwords]
  rw [hcmd, hfill, hconf]
  simp

theorem C10_witness :
    evMaybeZero.alternatives = [{ text := "maybe", confidence := 0 }] ∧
    (0 : ℚ) < defaultAdapterConfig.AGENT_SPEAKING_CONFIDENCE_THRESHOLD ∧
    (extract_words "maybe").length ≤
      defaultAdapterConfig.SHORT_SEGMENT_TOKEN_LIMIT ∧
    filter_event defaultAdapterConfig true evMaybeZero = evMaybeZero :=
  ⟨rfl, by decide, by decide,
   C10_zero_confidence defaultAdapterConfig evMaybeZero
     { text := "maybe", confidence := 0 } [] rfl rfl (by decide) rfl
     (by decide) (by decide) (by decide)⟩

/-- C3 counterexample: the event "maybe" with reported confidence
exactly 0 satisfies every condition of the claim (agent speaking, no
command, not all fillers, confidence strictly below the threshold,
token count within the limit, flag clear on input), yet the filter does
not set the suppression flag — refuting the claimed "if and only if". -/
theorem C3_counterexample :
    isTranscriptType evMaybeZero.type = true ∧
    evMaybeZero.ignoreInterruption = false ∧
    extract_words "maybe" ≠ [] ∧
    has_interrupt_command defaultAdapterConfig.INTERRUPTION_TRIGGERS
      (extract_words "maybe") = false ∧
    is_filler_only defaultAdapterConfig.IGNORED_FILLERS
      (extract_words "maybe") = false ∧
    (0 : ℚ) < defaultAdapterConfig.AGENT_SPEAKING_CONFIDENCE_THRESHOLD ∧
    (extract_words "maybe").length ≤
      defaultAdapterConfig.SHORT_SEGMENT_TOKEN_LIMIT ∧
    (filter_event defaultAdapterConfig true evMaybeZero).ignoreInterruption =
      false := by
  decide

/-- C3 (amended): while the agent is speaking, on a command-free,
not-all-filler, tokenizable transcript whose flag is clear, the
suppression flag is set if and only if the reported confidence is
NONZERO and strictly below the threshold and the token count is at most
the limit.  In particular confidence equal to the threshold never
suppresses (strict inequality) and token count equal to the limit is
eligible (inclusive bound); a zero (equivalently absent) confidence
never suppresses. -/
theorem C3_amended_low_confidence_short (cfg : AdapterConfig)
    (e : SpeechEvent) (alt : SpeechAlt) (rest : List SpeechAlt)
    (htype : isTranscriptType e.type = true)
    (halt : e.alternatives = alt :: rest)
    (hflag : e.ignoreInterruption = false)
    (hwords : extract_words alt.text ≠ [])
    (hcmd : has_interrupt_command cfg.INTERRUPTION_TRIGGERS
      (extract_words alt.text) = false)
    (hfill : is_filler_only cfg.IGNORED_FILLERS
      (extract_words alt.text) = false) :
    (filter_event cfg true e).ignoreInterruption = true ↔
      (alt.confidence ≠ 0 ∧
       alt.confidence < cfg.AGENT_SPEAKING_CONFIDENCE_THRESHOLD ∧
       (extract_words alt.text).length ≤ cfg.SHORT_SEGMENT_TOKEN_LIMIT) := by
  rw [filter_event_speaking_body cfg e alt rest htype halt hwords]
  rw [hcmd, hfill]
  split <;> simp_all
  split
  · next h => simp [h]
  · next h =>
    simp only [hflag]
    constructor
    · intro hh
      exact absurd hh (by simp)
    · intro hh
      exact absurd ⟨⟨hh.1, hh.2.1⟩, hh.2.2⟩ h

theorem C3_witness :
    isTranscriptType evMaybeLow.type = true ∧
    evMaybeLow.ignoreInterruption = false ∧
    (mkRat 2 10 ≠ 0 ∧
     mkRat 2 10 <
       defaultAdapterConfig.AGENT_SPEAKING_CONFIDENCE_THRESHOLD ∧
     (extract_words "maybe").length ≤
       defaultAdapterConfig.SHORT_SEGMENT_TOKEN_LIMIT) ∧
    (filter_event defaultAdapterConfig true evMaybeLow).ignoreInterruption =
      true := by
  have h := C3_amended_low_confidence_short defaultAdapterConfig evMaybeLow
    { text := "maybe", confidence := mkRat 2 10 } [] rfl rfl rfl (by decide)
    (by decide) (by decide)
  refine ⟨rfl, rfl, ⟨by decide, by decide, by decide⟩, ?_⟩
  exact h.mpr ⟨by decide, by decide, by decide⟩

/-- C1 counterexample: after a reload that put the new word "blah" into
the manager's filler set, an all-"blah" transcript while the agent is
speaking is NOT suppressed — the filtering decision reads the
import-time `config.py` sets, not the manager's vocabulary store. -/
theorem C1_counterexample :
    "blah" ∈ sysBlah.mgr.fillers ∧
    extract_words "blah" ≠ [] ∧
    (∀ w ∈ extract_words "blah", w ∈ sysBlah.mgr.fillers) ∧
    has_interrupt_command sysBlah.adapterCfg.INTERRUPTION_TRIGGERS
      (extract_words "blah") = false ∧
    isTranscriptType evBlah.type = true ∧
    (systemFilter sysBlah true evBlah).ignoreInterruption = false := by
  decide

/-- C1 (amended): the filtering decision consults only the import-time
configuration constants of `config.py`; a `FillerManager` reload
changes the manager's vocabulary but not the sets any subsequent
filtering decision uses. -/
theorem C1_amended_reload_preserves_filtering (dir : String)
    (fs : WatchedDir) (now : ℚ) (sys : SystemState) (sp : Bool)
    (e : SpeechEvent) :
    systemFilter (systemReload dir fs now sys) sp e =
      systemFilter sys sp e := rfl

/-- C9: `normalize_speech_tokens` maps each token independently through
the spec's per-token pipeline (lowercase, strip the fixed punctuation
set, variant-table lookup with identity fallback), hence is pure,
total, deterministic, order- and length-preserving; the spec's cited
variants map as stated. -/
theorem C9_normalize_speech_tokens :
    (∀ ws : List String,
        normalize_speech_tokens ws = ws.map specNormalizeToken) ∧
    (∀ ws : List String,
        (normalize_speech_tokens ws).length = ws.length) ∧
    normalize_speech_tokens ["Umm,", "OK", "han", "hello!"] =
      ["um", "okay", "haan", "hello"] := by
  refine ⟨fun ws => ?_, fun ws => by simp [normalize_speech_tokens], by decide⟩
  unfold normalize_speech_tokens specNormalizeToken
  apply List.map_congr_left
  intro w _
  dsimp only
  cases alistGet (pyStrip STRIP_CHARS (strLower w)) NORMALIZATION_MAP <;> rfl

/-- C8: construction fails with the directory-not-found error exactly
when the directory is missing; with the directory present it runs the
initial load unconditionally — the early-return guard cannot fire on a
fresh state, so every `.txt` file is read and the load timestamp is
recorded even when no change was detected. -/
theorem C8_init_behavior (dir : String) (fs : WatchedDir) (now : ℚ) :
    FillerManager_init dir false fs now =
      Except.error ("Filler directory not found: " ++ dir) ∧
    FillerManager_init dir true fs now =
      Except.ok (reload_if_changed dir fs now initialManagerState) ∧
    (reload_if_changed dir fs now initialManagerState).2 =
      ((listdirFS fs).filter (fun f => endsWithTxt f)).length ∧
    (reload_if_changed dir fs now initialManagerState).1.last_loaded_time =
      now := by
  have hcond : ¬((has_file_changes dir fs
      initialManagerState.file_cache).2 = false ∧
      0 < initialManagerState.last_loaded_time) := by
    intro h
    have h0 : (0 : ℚ) < 0 := h.2
    exact absurd h0 (by norm_num)
  refine ⟨rfl, rfl, ?_, ?_⟩ <;>
    · unfold reload_if_changed
      rw [if_neg hcond]

theorem alistGet_cons {α : Type} (a : String) (v : α) (es : List (String × α))
    (k : String) :
    alistGet k ((a, v) :: es) = if a = k then some v else alistGet k es := rfl

theorem alistGet_filter_ne {α : Type} (c : List (String × α)) (k k' : String)
    (h : k' ≠ k) :
    alistGet k' (c.filter (fun kv => kv.1 ≠ k)) = alistGet k' c := by
  induction c with
  | nil => rfl
  | cons kv rest ih =>
    obtain ⟨a, v⟩ := kv
    by_cases hk : a = k
    · rw [List.filter_cons, if_neg (by simp [hk]), ih, alistGet_cons,
        if_neg (by rw [hk]; exact fun hh => h hh.symm)]
    · rw [List.filter_cons, if_pos (by simpa using hk), alistGet_cons,
        alistGet_cons]
      by_cases hkk : a = k'
      · rw [if_pos hkk, if_pos hkk]
      · rw [if_neg hkk, if_neg hkk, ih]

theorem alistGet_dictSet_self {α : Type} (c : List (String × α)) (k : String)
    (v : α) : alistGet k (dictSet c k v) = some v := by
  unfold dictSet
  rw [alistGet_cons, if_pos rfl]

theorem alistGet_dictSet_ne {α : Type} (c : List (String × α)) (k k' : String)
    (v : α) (h : k' ≠ k) :
    alistGet k' (dictSet c k v) = alistGet k' c := by
  unfold dictSet
  rw [alistGet_cons, if_neg (fun hh => h hh.symm)]
  exact alistGet_filter_ne c k k' h

theorem pathJoin_inj (dir a b : String) (h : pathJoin dir a = pathJoin dir b) :
    a = b := by
  unfold pathJoin at h
  have hd : dir.data ++ '/' :: a.data = dir.data ++ '/' :: b.data := by
    have := congrArg String.data h
    simpa using this
  have hab : a.data = b.data := by
    have h2 := List.append_cancel_left hd
    simpa using h2
  cases a
  cases b
  exact congrArg String.mk hab

theorem getmtime_isSome_of_mem (fs : WatchedDir) (n : String)
    (h : n ∈ listdirFS fs) : ∃ m, getmtimeFS fs n = some m := by
  have key : ∀ es : List FSEntry, n ∈ es.map (fun e => e.name) →
      ∃ m, Option.map (fun e => e.mtime) (fsFind n es) = some m := by
    intro es
    induction es with
    | nil => intro hmem; simp at hmem
    | cons e rest ih =>
      intro hmem
      by_cases he : e.name = n
      · exact ⟨e.mtime, by simp [fsFind, he]⟩
      · simp only [List.map_cons, List.mem_cons] at hmem
        rcases hmem with hh | hh
        · exact absurd hh.symm he
        · have := ih hh
          simpa [fsFind, he] using this
  exact key fs.entries h

theorem mem_keys_of_isSome {α : Type} (c : List (String × α)) (k : String)
    (h : (alistGet k c).isSome = true) : k ∈ c.map (fun kv => kv.1) := by
  induction c with
  | nil => simp [alistGet] at h
  | cons kv rest ih =>
    obtain ⟨a, v⟩ := kv
    by_cases hk : a = k
    · simp [hk]
    · rw [alistGet_cons, if_neg hk] at h
      simp [ih h]

theorem isSome_of_mem_keys {α : Type} (c : List (String × α)) (k : String)
    (h : k ∈ c.map (fun kv => kv.1)) : (alistGet k c).isSome = true := by
  induction c with
  | nil => simp at h
  | cons kv rest ih =>
    obtain ⟨a, v⟩ := kv
    by_cases hk : a = k
    · simp [alistGet_cons, hk]
    · simp only [List.map_cons, List.mem_cons] at h
      rcases h with h | h
      · exact absurd h.symm hk
      · simp [alistGet_cons, hk, ih h]

theorem scan_cur (dir : String) (fs : WatchedDir) :
    ∀ (names : List String) (cache : MtimeCache) (upd : Bool)
      (cur : List String),
      (scanFiles dir fs names cache upd cur).2.2 =
        cur ++ (names.filter (fun f => endsWithTxt f)).map (pathJoin dir) := by
  intro names
  induction names with
  | nil => intro cache upd cur; simp [scanFiles]
  | cons f rest ih =>
    intro cache upd cur
    cases hf : endsWithTxt f with
    | false => simp [scanFiles, hf, ih]
    | true =>
      cases hm : getmtimeFS fs f with
      | none => simp [scanFiles, hf, hm, ih]
      | some m =>
        cases hl : alistGet (pathJoin dir f) cache with
        | none => simp [scanFiles, hf, hm, hl, ih]
        | some t =>
          by_cases hlt : t < m <;>
            simp [scanFiles, hf, hm, hl, hlt, ih]

theorem scan_upd_mono (dir : String) (fs : WatchedDir) :
    ∀ (names : List String) (cache : MtimeCache) (cur : List String),
      (scanFiles dir fs names cache true cur).2.1 = true := by
  intro names
  induction names with
  | nil => intro cache cur; simp [scanFiles]
  | cons f rest ih =>
    intro cache cur
    cases hf : endsWithTxt f with
    | false => simp [scanFiles, hf, ih]
    | true =>
      cases hm : getmtimeFS fs f with
      | none => simp [scanFiles, hf, hm, ih]
      | some m =>
        cases hl : alistGet (pathJoin dir f) cache with
        | none => simp [scanFiles, hf, hm, hl, ih]
        | some t =>
          by_cases hlt : t < m <;>
            simp [scanFiles, hf, hm, hl, hlt, ih]

theorem scan_trigger_true (dir : String) (fs : WatchedDir) :
    ∀ (names : List String) (cache : MtimeCache) (upd : Bool)
      (cur : List String) (f : String), f ∈ names →
      fileTrigger dir fs cache f = true →
      (scanFiles dir fs names cache upd cur).2.1 = true := by
  intro names
  induction names with
  | nil => intro cache upd cur f hmem; simp at hmem
  | cons g rest ih =>
    intro cache upd cur f hmem ht
    rcases List.mem_cons.mp hmem with rfl | hmem
    · unfold fileTrigger at ht
      rw [Bool.and_eq_true] at ht
      obtain ⟨htxt, hrest⟩ := ht
      cases hm : getmtimeFS fs f with
      | none => rw [hm] at hrest; simp at hrest
      | some m =>
        rw [hm] at hrest
        cases hl : alistGet (pathJoin dir f) cache with
        | none => simp [scanFiles, htxt, hm, hl, scan_upd_mono]
        | some t =>
          rw [hl] at hrest
          have hlt : t < m := by simpa using hrest
          simp [scanFiles, htxt, hm, hl, hlt, scan_upd_mono]
    · cases hf : endsWithTxt g with
      | false => simp only [scanFiles, hf]; exact ih cache upd cur f hmem ht
      | true =>
        cases hm : getmtimeFS fs g with
        | none =>
          simp only [scanFiles, hf, hm]
          simp only [Bool.true_eq_false, if_false]
          exact ih cache upd _ f hmem ht
        | some m =>
          cases hl : alistGet (pathJoin dir g) cache with
          | none => simp [scanFiles, hf, hm, hl, scan_upd_mono]
          | some t =>
            by_cases hlt : t < m
            · simp [scanFiles, hf, hm, hl, hlt, scan_upd_mono]
            · simp only [scanFiles, hf, hm, hl]
              simp only [Bool.true_eq_false, if_false]
              rw [if_neg hlt]
              exact ih cache upd _ f hmem ht

theorem scan_no_trigger (dir : String) (fs : WatchedDir) :
    ∀ (names : List String) (cache : MtimeCache) (upd : Bool)
      (cur : List String),
      (∀ f ∈ names, fileTrigger dir fs cache f = false) →
      scanFiles dir fs names cache upd cur =
        (cache, upd,
          cur ++ (names.filter (fun f => endsWithTxt f)).map (pathJoin dir)) := by
  intro names
  induction names with
  | nil => intro cache upd cur _; simp [scanFiles]
  | cons g rest ih =>
    intro cache upd cur h
    have hg := h g (List.mem_cons_self g rest)
    have hrest : ∀ f ∈ rest, fileTrigger dir fs cache f = false :=
      fun f hf => h f (List.mem_cons_of_mem g hf)
    cases hf : endsWithTxt g with
    | false => simp [scanFiles, hf, ih cache upd cur hrest]
    | true =>
      cases hm : getmtimeFS fs g with
      | none => simp [scanFiles, hf, hm, ih cache upd _ hrest]
      | some m =>
        unfold fileTrigger at hg
        rw [hf, hm, Bool.true_and] at hg
        cases hl : alistGet (pathJoin dir g) cache with
        | none => rw [hl] at hg; simp at hg
        | some t =>
          rw [hl] at hg
          have hnlt : ¬t < m := by simpa using hg
          simp [scanFiles, hf, hm, hl, hnlt, ih cache upd _ hrest]

theorem scan_keys_isSome_mono (dir : String) (fs : WatchedDir) :
    ∀ (names : List String) (cache : MtimeCache) (upd : Bool)
      (cur : List String) (k : String),
      (alistGet k cache).isSome = true →
      (alistGet k (scanFiles dir fs names cache upd cur).1).isSome = true := by
  intro names
  induction names with
  | nil => intro cache upd cur k hk; simpa [scanFiles] using hk
  | cons g rest ih =>
    intro cache upd cur k hk
    have hset : ∀ (m : ℚ),
        (alistGet k (dictSet cache (pathJoin dir g) m)).isSome = true := by
      intro m
      by_cases hp : k = pathJoin dir g
      · rw [hp, alistGet_dictSet_self]; rfl
      · rw [alistGet_dictSet_ne cache _ k m hp]; exact hk
    cases hf : endsWithTxt g with
    | false => simp only [scanFiles, hf]; exact ih cache upd cur k hk
    | true =>
      cases hm : getmtimeFS fs g with
      | none =>
        simp only [scanFiles, hf, hm, Bool.true_eq_false, if_false]
        exact ih cache upd _ k hk
      | some m =>
        cases hl : alistGet (pathJoin dir g) cache with
        | none =>
          simp only [scanFiles, hf, hm, hl, Bool.true_eq_false, if_false]
          exact ih _ true _ k (hset m)
        | some t =>
          by_cases hlt : t < m
          · simp only [scanFiles, hf, hm, hl, Bool.true_eq_false, if_false,
              if_pos hlt]
            exact ih _ true _ k (hset m)
          · simp only [scanFiles, hf, hm, hl, Bool.true_eq_false, if_false,
              if_neg hlt]
            exact ih cache upd _ k hk

theorem scan_lookup_ge (dir : String) (fs : WatchedDir) :
    ∀ (names : List String) (cache : MtimeCache) (upd : Bool)
      (cur : List String) (n : String) (m : ℚ),
      getmtimeFS fs n = some m →
      (∃ t, alistGet (pathJoin dir n) cache = some t ∧ m ≤ t) →
      ∃ t, alistGet (pathJoin dir n)
        (scanFiles dir fs names cache upd cur).1 = some t ∧ m ≤ t := by
  intro names
  induction names with
  | nil => intro cache upd cur n m _ hprop; simpa [scanFiles] using hprop
  | cons g rest ih =>
    intro cache upd cur n m hn hprop
    cases hf : endsWithTxt g with
    | false => simp only [scanFiles, hf]; exact ih cache upd cur n m hn hprop
    | true =>
      cases hm : getmtimeFS fs g with
      | none =>
        simp only [scanFiles, hf, hm, Bool.true_eq_false, if_false]
        exact ih cache upd _ n m hn hprop
      | some mg =>
        by_cases hp : pathJoin dir n = pathJoin dir g
        · have hng : n = g := pathJoin_inj dir n g hp
          subst hng
          have hmg : mg = m := by
            rw [hn] at hm
            injection hm with hv
            exact hv.symm
          subst hmg
          obtain ⟨t, ht, hmt⟩ := hprop
          cases hl : alistGet (pathJoin dir n) cache with
          | none => rw [hl] at ht; cases ht
          | some t0 =>
            have ht0 : t0 = t := by
              rw [hl] at ht
              injection ht
            subst ht0
            have hnlt : ¬t0 < mg := not_lt.mpr hmt
            simp only [scanFiles, hf, hm, hl, Bool.true_eq_false, if_false,
              if_neg hnlt]
            exact ih cache upd _ n mg hn ⟨t0, hl, hmt⟩
        · have hpres : ∀ (v : ℚ),
              alistGet (pathJoin dir n)
                (dictSet cache (pathJoin dir g) v) =
                alistGet (pathJoin dir n) cache :=
            fun v => alistGet_dictSet_ne cache _ _ v hp
          cases hl : alistGet (pathJoin dir g) cache with
          | none =>
            simp only [scanFiles, hf, hm, hl, Bool.true_eq_false, if_false]
            refine ih _ true _ n m hn ?_
            rw [hpres mg]
            exact hprop
          | some t =>
            by_cases hlt : t < mg
            · simp only [scanFiles, hf, hm, hl, Bool.true_eq_false, if_false,
                if_pos hlt]
              refine ih _ true _ n m hn ?_
              rw [hpres mg]
              exact hprop
            · simp only [scanFiles, hf, hm, hl, Bool.true_eq_false, if_false,
                if_neg hlt]
              exact ih cache upd _ n m hn hprop

theorem scan_lookup_establish (dir : String) (fs : WatchedDir) :
    ∀ (names : List String) (cache : MtimeCache) (upd : Bool)
      (cur : List String) (n : String) (m : ℚ),
      n ∈ names → endsWithTxt n = true → getmtimeFS fs n = some m →
      ∃ t, alistGet (pathJoin dir n)
        (scanFiles dir fs names cache upd cur).1 = some t ∧ m ≤ t := by
  intro names
  induction names with
  | nil => intro cache upd cur n m hmem; simp at hmem
  | cons g rest ih =>
    intro cache upd cur n m hmem htxt hn
    rcases List.mem_cons.mp hmem with rfl | hmem
    · cases hl : alistGet (pathJoin dir n) cache with
      | none =>
        simp only [scanFiles, htxt, hn, hl, Bool.true_eq_false, if_false]
        refine scan_lookup_ge dir fs rest _ true _ n m hn ?_
        exact ⟨m, alistGet_dictSet_self cache _ m, le_refl m⟩
      | some t =>
        by_cases hlt : t < m
        · simp only [scanFiles, htxt, hn, hl, Bool.true_eq_false, if_false,
            if_pos hlt]
          refine scan_lookup_ge dir fs rest _ true _ n m hn ?_
          exact ⟨m, alistGet_dictSet_self cache _ m, le_refl m⟩
        · simp only [scanFiles, htxt, hn, hl, Bool.true_eq_false, if_false,
            if_neg hlt]
          exact scan_lookup_ge dir fs rest cache upd _ n m hn
            ⟨t, hl, not_lt.mp hlt⟩
    · cases hf : endsWithTxt g with
      | false =>
        simp only [scanFiles, hf]
        exact ih cache upd cur n m hmem htxt hn
      | true =>
        cases hm : getmtimeFS fs g with
        | none =>
          simp only [scanFiles, hf, hm, Bool.true_eq_false, if_false]
          exact ih cache upd _ n m hmem htxt hn
        | some mg =>
          cases hl : alistGet (pathJoin dir g) cache with
          | none =>
            simp only [scanFiles, hf, hm, hl, Bool.true_eq_false, if_false]
            exact ih _ true _ n m hmem htxt hn
          | some t =>
            by_cases hlt : t < mg
            · simp only [scanFiles, hf, hm, hl, Bool.true_eq_false, if_false,
                if_pos hlt]
              exact ih _ true _ n m hmem htxt hn
            · simp only [scanFiles, hf, hm, hl, Bool.true_eq_false, if_false,
                if_neg hlt]
              exact ih cache upd _ n m hmem htxt hn

theorem alistGet_filter_mem (c : MtimeCache) (cur : List String) (k : String)
    (hk : k ∈ cur) :
    alistGet k (c.filter (fun kv => decide (kv.1 ∈ cur))) = alistGet k c := by
  induction c with
  | nil => rfl
  | cons kv rest ih =>
    obtain ⟨a, v⟩ := kv
    by_cases ha : a ∈ cur
    · rw [List.filter_cons, if_pos (by simpa using ha), alistGet_cons,
        alistGet_cons]
      by_cases hak : a = k
      · rw [if_pos hak, if_pos hak]
      · rw [if_neg hak, if_neg hak, ih]
    · have hak : a ≠ k := fun hh => ha (hh ▸ hk)
      rw [List.filter_cons, if_neg (by simpa using ha), alistGet_cons,
        if_neg hak, ih]

theorem scan_false_unchanged (dir : String) (fs : WatchedDir) :
    ∀ (names : List String) (cache : MtimeCache) (upd : Bool)
      (cur : List String),
      (scanFiles dir fs names cache upd cur).2.1 = false →
      (scanFiles dir fs names cache upd cur).1 = cache := by
  intro names
  induction names with
  | nil => intro cache upd cur _; rfl
  | cons g rest ih =>
    intro cache upd cur h
    cases hf : endsWithTxt g with
    | false =>
      rw [scanFiles, if_pos (by rw [hf])] at h ⊢
      exact ih cache upd cur h
    | true =>
      cases hm : getmtimeFS fs g with
      | none =>
        simp only [scanFiles, hf, hm, Bool.true_eq_false, if_false] at h ⊢
        exact ih cache upd _ h
      | some m =>
        cases hl : alistGet (pathJoin dir g) cache with
        | none =>
          simp only [scanFiles, hf, hm, hl, Bool.true_eq_false, if_false] at h
          rw [scan_upd_mono] at h
          cases h
        | some t =>
          by_cases hlt : t < m
          · simp only [scanFiles, hf, hm, hl, Bool.true_eq_false, if_false,
              if_pos hlt] at h
            rw [scan_upd_mono] at h
            cases h
          · simp only [scanFiles, hf, hm, hl, Bool.true_eq_false, if_false,
              if_neg hlt] at h ⊢
            exact ih cache upd _ h

theorem has_changes_false_unchanged (dir : String) (fs : WatchedDir)
    (cache : MtimeCache) (h : (has_file_changes dir fs cache).2 = false) :
    (has_file_changes dir fs cache).1 = cache := by
  unfold has_file_changes at h ⊢
  dsimp only at h ⊢
  split at h
  · next hset =>
    rw [if_pos hset]
    exact scan_false_unchanged dir fs (listdirFS fs) cache false [] h
  · cases h

theorem listSetEq_true_of (a b : List String) (h1 : ∀ x ∈ a, x ∈ b)
    (h2 : ∀ x ∈ b, x ∈ a) : listSetEqStr a b = true := by
  unfold listSetEqStr
  rw [Bool.and_eq_true]
  constructor
  · rw [List.all_eq_true]
    intro x hx
    simpa using h1 x hx
  · rw [List.all_eq_true]
    intro x hx
    simpa using h2 x hx

theorem listSetEq_false_of (a b : List String) (x : String) (hx : x ∈ a)
    (hnb : x ∉ b) : listSetEqStr a b = false := by
  unfold listSetEqStr
  rw [Bool.and_eq_false_iff]
  left
  rw [List.all_eq_false]
  exact ⟨x, hx, by simpa using hnb⟩

theorem has_changes_of_stable (dir : String) (fs : WatchedDir)
    (cache : MtimeCache)
    (h1 : ∀ f ∈ listdirFS fs, fileTrigger dir fs cache f = false)
    (h2 : ∀ kv ∈ cache, kv.1 ∈ txtPaths dir fs)
    (h3 : ∀ p ∈ txtPaths dir fs, (alistGet p cache).isSome = true) :
    has_file_changes dir fs cache = (cache, false) := by
  unfold has_file_changes
  rw [scan_no_trigger dir fs (listdirFS fs) cache false [] h1]
  dsimp only
  have hset : listSetEqStr (cache.map (fun kv => kv.1))
      ([] ++ ((listdirFS fs).filter (fun f => endsWithTxt f)).map
        (pathJoin dir)) = true := by
    refine listSetEq_true_of _ _ ?_ ?_
    · intro x hx
      obtain ⟨kv, hkv, rfl⟩ := List.mem_map.mp hx
      simpa [txtPaths] using h2 kv hkv
    · intro p hp
      refine mem_keys_of_isSome cache p (h3 p ?_)
      simpa [txtPaths] using hp
  rw [if_pos hset]

theorem has_changes_result_lookup (dir : String) (fs : WatchedDir)
    (cache : MtimeCache) (f : String) (m : ℚ) (hmem : f ∈ listdirFS fs)
    (htxt : endsWithTxt f = true) (hm : getmtimeFS fs f = some m) :
    ∃ t, alistGet (pathJoin dir f) (has_file_changes dir fs cache).1 =
      some t ∧ m ≤ t := by
  obtain ⟨t, ht, hmt⟩ := scan_lookup_establish dir fs (listdirFS fs) cache
    false [] f m hmem htxt hm
  unfold has_file_changes
  dsimp only
  split
  · exact ⟨t, ht, hmt⟩
  · refine ⟨t, ?_, hmt⟩
    have hcur : pathJoin dir f ∈
        (scanFiles dir fs (listdirFS fs) cache false []).2.2 := by
      rw [scan_cur]
      simp only [List.nil_append, List.mem_map]
      exact ⟨f, List.mem_filter.mpr ⟨hmem, htxt⟩, rfl⟩
    rw [alistGet_filter_mem _ _ _ hcur]
    exact ht

theorem has_changes_result_keys (dir : String) (fs : WatchedDir)
    (cache : MtimeCache) :
    ∀ kv ∈ (has_file_changes dir fs cache).1, kv.1 ∈ txtPaths dir fs := by
  unfold has_file_changes
  dsimp only
  split
  · next hset =>
    intro kv hkv
    unfold listSetEqStr at hset
    rw [Bool.and_eq_true] at hset
    have h1 := hset.1
    rw [List.all_eq_true] at h1
    have := h1 kv.1 (List.mem_map_of_mem (fun kv => kv.1) hkv)
    rw [decide_eq_true_eq] at this
    rw [scan_cur] at this
    simpa [txtPaths] using this
  · intro kv hkv
    have := (List.mem_filter.mp hkv).2
    rw [decide_eq_true_eq] at this
    rw [scan_cur] at this
    simpa [txtPaths] using this

theorem reload_stable (dir : String) (fs : WatchedDir) (now : ℚ)
    (s : FillerManagerState) (hnow : 0 < now) :
    has_file_changes dir fs
        ((reload_if_changed dir fs now s).1).file_cache =
      (((reload_if_changed dir fs now s).1).file_cache, false) ∧
    0 < ((reload_if_changed dir fs now s).1).last_loaded_time := by
  have hstable : ∀ cache : MtimeCache,
      has_file_changes dir fs (has_file_changes dir fs cache).1 =
        ((has_file_changes dir fs cache).1, false) := by
    intro cache
    apply has_changes_of_stable
    · intro f hf
      cases hftxt : endsWithTxt f with
      | false => unfold fileTrigger; rw [hftxt]; rfl
      | true =>
        obtain ⟨m, hm⟩ := getmtime_isSome_of_mem fs f hf
        obtain ⟨t, ht, hmt⟩ :=
          has_changes_result_lookup dir fs cache f m hf hftxt hm
        unfold fileTrigger
        rw [hftxt, Bool.true_and, hm, ht]
        simpa using not_lt.mpr hmt
    · exact has_changes_result_keys dir fs cache
    · intro p hp
      have hp2 := hp
      unfold txtPaths at hp2
      rw [List.mem_map] at hp2
      obtain ⟨f, hf, rfl⟩ := hp2
      have hmem := (List.mem_filter.mp hf).1
      have htxt := (List.mem_filter.mp hf).2
      obtain ⟨m, hm⟩ := getmtime_isSome_of_mem fs f hmem
      obtain ⟨t, ht, _⟩ :=
        has_changes_result_lookup dir fs cache f m hmem htxt hm
      rw [ht]
      rfl
  unfold reload_if_changed
  dsimp only
  split
  · next hcond =>
    obtain ⟨hfalse, hlast⟩ := hcond
    have hcc : (has_file_changes dir fs s.file_cache).1 = s.file_cache :=
      has_changes_false_unchanged dir fs s.file_cache hfalse
    constructor
    · show has_file_changes dir fs (has_file_changes dir fs s.file_cache).1 =
        ((has_file_changes dir fs s.file_cache).1, false)
      exact hstable s.file_cache
    · exact hlast
  · constructor
    · exact hstable s.file_cache
    · exact hnow

/-- C7: running `reload_if_changed` on the state produced by an
immediately preceding `reload_if_changed` against an unchanged
directory is a no-op — the state (fillers and commands included) is
returned unchanged and zero files are read. -/
theorem C7_reload_idempotent (dir : String) (fs : WatchedDir)
    (s : FillerManagerState) (now1 now2 : ℚ) (h : 0 < now1) :
    reload_if_changed dir fs now2 (reload_if_changed dir fs now1 s).1 =
      ((reload_if_changed dir fs now1 s).1, 0) := by
  obtain ⟨hhc, hlast⟩ := reload_stable dir fs now1 s h
  have key : ∀ s1 : FillerManagerState,
      has_file_changes dir fs s1.file_cache = (s1.file_cache, false) →
      0 < s1.last_loaded_time →
      reload_if_changed dir fs now2 s1 = (s1, 0) := by
    intro s1 h1 h2
    unfold reload_if_changed
    dsimp only
    rw [h1]
    rw [if_pos ⟨rfl, h2⟩]
  exact key _ hhc hlast

theorem C7_witness :
    (0 : ℚ) < 1 ∧
    reload_if_changed "d" fsTwo 2
        (reload_if_changed "d" fsTwo 1 initialManagerState).1 =
      ((reload_if_changed "d" fsTwo 1 initialManagerState).1, 0) :=
  ⟨by norm_num,
   C7_reload_idempotent "d" fsTwo initialManagerState 1 2 (by norm_num)⟩

/-- C2 counterexample: with `a.txt` cached at mtime 10 but observed at
mtime 5 — an mtime that differs from the cached one (smaller) — the
change detector reports NO change, refuting the "either direction"
part of the claim. -/
theorem C2_counterexample :
    listdirFS fsMtimeDecreased = ["a.txt"] ∧
    getmtimeFS fsMtimeDecreased "a.txt" = some 5 ∧
    alistGet (pathJoin "d" "a.txt") cacheA10 = some 10 ∧
    (5 : ℚ) ≠ 10 ∧
    (has_file_changes "d" fsMtimeDecreased cacheA10).2 = false := by
  decide

/-- C2 (amended): the detector reports a change whenever some listed
`.txt` file is new to the cache or has an observed mtime STRICTLY
GREATER than the cached one (not merely different), and whenever some
previously-cached path is no longer among the listed `.txt` paths. -/
theorem C2_amended_change_detection (dir : String) (fs : WatchedDir)
    (cache : MtimeCache)
    (h : (∃ f ∈ listdirFS fs, endsWithTxt f = true ∧
            (alistGet (pathJoin dir f) cache = none ∨
             ∃ m t, getmtimeFS fs f = some m ∧
               alistGet (pathJoin dir f) cache = some t ∧ t < m)) ∨
         ∃ kv ∈ cache, kv.1 ∉ txtPaths dir fs) :
    (has_file_changes dir fs cache).2 = true := by
  rcases h with ⟨f, hmem, htxt, hcase⟩ | ⟨kv, hkv, hnot⟩
  · have htrig : fileTrigger dir fs cache f = true := by
      unfold fileTrigger
      rw [htxt, Bool.true_and]
      obtain ⟨m, hm⟩ := getmtime_isSome_of_mem fs f hmem
      rw [hm]
      rcases hcase with hnone | ⟨m', t, hm', hl, hlt⟩
      · rw [hnone]
      · have hmm : m = m' := by
          rw [hm] at hm'
          injection hm' with hv
        rw [hl]
        subst hmm
        exact decide_eq_true hlt
    unfold has_file_changes
    dsimp only
    split
    · exact scan_trigger_true dir fs (listdirFS fs) cache false [] f hmem htrig
    · rfl
  · unfold has_file_changes
    dsimp only
    have hkey : (alistGet kv.1
        (scanFiles dir fs (listdirFS fs) cache false []).1).isSome = true :=
      scan_keys_isSome_mono dir fs _ cache false [] kv.1
        (isSome_of_mem_keys cache kv.1
          (List.mem_map_of_mem (fun kv => kv.1) hkv))
    have hmemk : kv.1 ∈
        (scanFiles dir fs (listdirFS fs) cache false []).1.map
          (fun kv => kv.1) := mem_keys_of_isSome _ _ hkey
    have hnotcur : kv.1 ∉
        (scanFiles dir fs (listdirFS fs) cache false []).2.2 := by
      rw [scan_cur]
      simpa [txtPaths] using hnot
    rw [listSetEq_false_of _ _ kv.1 hmemk hnotcur]
    simp

theorem C2_amended_witness :
    (∃ f ∈ listdirFS fsMtimeIncreased, endsWithTxt f = true ∧
       (alistGet (pathJoin "d" f) cacheA10 = none ∨
        ∃ m t, getmtimeFS fsMtimeIncreased f = some m ∧
          alistGet (pathJoin "d" f) cacheA10 = some t ∧ t < m)) ∧
    (has_file_changes "d" fsMtimeIncreased cacheA10).2 = true :=
  have hx : ∃ f ∈ listdirFS fsMtimeIncreased, endsWithTxt f = true ∧
      (alistGet (pathJoin "d" f) cacheA10 = none ∨
       ∃ m t, getmtimeFS fsMtimeIncreased f = some m ∧
         alistGet (pathJoin "d" f) cacheA10 = some t ∧ t < m) :=
    ⟨"a.txt", by decide, by decide,
     Or.inr ⟨15, 10, by decide, by decide, by decide⟩⟩
  ⟨hx, C2_amended_change_detection "d" fsMtimeIncreased cacheA10 (Or.inl hx)⟩
